import Mathlib

/-!
Verification development for the greeting-app repository
(src/api/mcp/salesforce-server.js).

Part 1 embeds the NLP-to-SOQL converter (class NLPQueryConverter):
its ordered rule table of JavaScript regular expressions with literal or
match-group templates, and the convert method.  JavaScript regular
expression search (String.prototype.match with the /i flag) is embedded by
a small backtracking matcher covering exactly the constructs the source's
patterns use: case-insensitive literals, the classes \s \w . [\s-], the
greedy quantifiers + and ?, non-capturing alternation, one capture group,
and the word boundary \b.  Strings are modelled as lists of characters;
the leftmost match is found by scanning candidate start positions left to
right, with alternation tried in written order and quantifiers greedy,
exactly the backtracking order of a JavaScript engine on these patterns.

Part 2 embeds the MCP stdio client (class MCPClient): newline framing of
the incoming byte stream (handleData), response/notification dispatch
(handleMessage), request issue with id allocation and 30-second timeout
(sendRequest, with the timer firing modelled as an explicit event), and
disconnect.  JSON.parse is the platform parser and is abstracted as a
function parameter `parse`; a parse failure (the thrown SyntaxError,
caught and logged by the source) is `none`.

Part 3 embeds the registry (class MCPManager): addServer with the
spawn/handshake/tools-list outcomes of the awaited calls supplied as an
explicit outcome value, the aggregated tool catalog with
serverName__toolName qualified names, and executeTool routing.
-/

/-! ## JavaScript character helpers -/

/-- Whitespace recognised by the JavaScript \s class and String.trim
(the ASCII whitespace and line terminators plus the common Unicode ones). -/
def isJsWs (c : Char) : Bool :=
  c == ' ' || c == '\t' || c == '\n' || c == '\r' || c == '\x0b' ||
  c == '\x0c' || c == '\u00A0' || c == '\uFEFF'

/-- ASCII lower-casing, as used for case-insensitive (/i) comparison. -/
def asciiLower (c : Char) : Char :=
  if 'A' ≤ c && c ≤ 'Z' then Char.ofNat (c.toNat + 32) else c

/-- ASCII upper-casing, modelling String.prototype.toUpperCase on the
characters relevant here. -/
def asciiUpper (c : Char) : Char :=
  if 'a' ≤ c && c ≤ 'z' then Char.ofNat (c.toNat - 32) else c

/-- Word characters of the JavaScript \w class and of the \b boundary. -/
def isWordChar (c : Char) : Bool :=
  ('a' ≤ c && c ≤ 'z') || ('A' ≤ c && c ≤ 'Z') ||
  ('0' ≤ c && c ≤ '9') || c == '_'

/-- Characters matched by the JavaScript . class (anything except a line
terminator). -/
def isDotChar (c : Char) : Bool :=
  !(c == '\n' || c == '\r' || c == '\u2028' || c == '\u2029')

/-- String.prototype.trim on a character list. -/
def jsTrimL (l : List Char) : List Char :=
  ((l.dropWhile isJsWs).reverse.dropWhile isJsWs).reverse

/-- Boolean test that the first list starts with the second. -/
def startsWithL : List Char → List Char → Bool
  | _, [] => true
  | [], _ :: _ => false
  | c :: cs, p :: ps => c == p && startsWithL cs ps

/-! ## Regular expression syntax and backtracking matcher -/

/-- Syntax of the regular expressions occurring in NLPQueryConverter:
empty word, one-character class, concatenation, alternation (left
alternative preferred, as in JavaScript), greedy one-or-more of a class,
one capture group, and the \b word boundary.  The optional quantifier x?
is alt x eps (greedy: presence preferred) and a case-insensitive literal
is a sequence of classes. -/
inductive Re where
  | eps
  | cls (p : Char → Bool)
  | seq (a b : Re)
  | alt (a b : Re)
  | plus (p : Char → Bool)
  | grp (a : Re)
  | wordB

/-- Result of a regex match: the text of capture group 1, when the pattern
has a group and it participated in the match. -/
abbrev MRes := Option (List Char)

/-- Greedy continuation-passing matcher for plus after its first
character: extend the repetition while possible, backtracking to shorter
repetitions when the continuation fails.  `last` is the character consumed
most recently (needed by a following word boundary). -/
def plusTry (p : Char → Bool) : Char → List Char →
    (Option Char → List Char → Option MRes) → Option MRes
  | last, [], k => k (some last) []
  | last, c :: rest, k =>
    if p c then
      match plusTry p c rest k with
      | some r => some r
      | none => k (some last) (c :: rest)
    else k (some last) (c :: rest)

/-- Backtracking matcher in continuation-passing style.  `prev` is the
character immediately before the current position (none at the start of
the subject), `cap` the capture recorded so far; the continuation receives
the position after the piece just matched.  The first success found is
the one a JavaScript engine reports on these patterns: alternatives in
written order, quantifiers greedy. -/
def mrun : Re → Option Char → List Char → MRes →
    (Option Char → List Char → MRes → Option MRes) → Option MRes
  | .eps, prev, s, cap, k => k prev s cap
  | .cls p, _, s, cap, k =>
    match s with
    | [] => none
    | c :: rest => if p c then k (some c) rest cap else none
  | .seq a b, prev, s, cap, k =>
    mrun a prev s cap fun pr s2 c2 => mrun b pr s2 c2 k
  | .alt a b, prev, s, cap, k =>
    match mrun a prev s cap k with
    | some r => some r
    | none => mrun b prev s cap k
  | .plus p, _, s, cap, k =>
    match s with
    | [] => none
    | c :: rest => if p c then plusTry p c rest (fun pr s2 => k pr s2 cap) else none
  | .grp a, prev, s, cap, k =>
    mrun a prev s cap fun pr s2 _ => k pr s2 (some (s.take (s.length - s2.length)))
  | .wordB, prev, s, cap, k =>
    if (match prev with | some c => isWordChar c | none => false) !=
       (match s.head? with | some c => isWordChar c | none => false) then
      k prev s cap
    else none

/-- Unanchored search: try each start position from the left; at the first
position where the pattern matches, report its capture.  This is
String.prototype.match restricted to the data the converter uses
(null, or the value of capture group 1). -/
def searchFrom (r : Re) : Option Char → List Char → Option MRes
  | prev, [] => mrun r prev [] none fun _ _ cap => some cap
  | prev, c :: rest =>
    match mrun r prev (c :: rest) none fun _ _ cap => some cap with
    | some res => some res
    | none => searchFrom r (some c) rest

/-- input.match(pattern), reduced to: none when there is no match, and
some cap (cap the text of group 1, if any) at the leftmost match. -/
def reMatch (r : Re) (s : List Char) : Option MRes :=
  searchFrom r none s

/-! ## The converter's patterns -/

/-- Case-insensitive single character (the /i flag). -/
def ciChar (c : Char) : Re := .cls fun d => asciiLower d == asciiLower c

/-- Case-insensitive literal string. -/
def ciStr (s : String) : Re := (s.toList.map ciChar).foldr .seq .eps

/-- Alternation of a list of alternatives, in written order. -/
def altL : List Re → Re
  | [] => .cls fun _ => false
  | [r] => r
  | r :: rs => .alt r (altL rs)

/-- Greedy optional quantifier x? (presence preferred). -/
def ropt (r : Re) : Re := .alt r .eps

/-- Concatenation of a list of pieces. -/
def cseq (rs : List Re) : Re := rs.foldr .seq .eps

/-- The class \s+ . -/
def wsP : Re := .plus isJsWs

/-- The quantified literal s? closing the plural forms. -/
def sOpt : Re := ropt (ciChar 's')

/-- The verb alternation (?:show|list|get|find). -/
def verbAlt : Re := altL [ciStr "show", ciStr "list", ciStr "get", ciStr "find"]

/-- The optional (?:all\s+) piece. -/
def allOpt : Re := ropt (cseq [ciStr "all", wsP])

/-- The alternation (?:opportunities|opps?|deals?). -/
def oppAlt : Re :=
  altL [ciStr "opportunities", .seq (ciStr "opp") sOpt, .seq (ciStr "deal") sOpt]

/-- The alternation (?:cases?|tickets?). -/
def caseAlt : Re :=
  altL [.seq (ciStr "case") sOpt, .seq (ciStr "ticket") sOpt]

/-- A rule's template: a literal SOQL string, or a function of the match
(the source's arrow functions of the regex match object). -/
inductive Template where
  | lit (s : String)
  | fn (f : MRes → String)

/-- One entry of this.patterns. -/
structure Rule where
  pattern : Re
  template : Template

/-- Reading match[1] in JavaScript: the captured text, or the string
"undefined" when the group did not participate (template strings coerce
undefined to "undefined"). -/
def jsGroupStr : MRes → String
  | some l => String.mk l
  | none => "undefined"

/-- Invoke a rule's template on the match. -/
def applyTemplate : Template → MRes → String
  | .lit s, _ => s
  | .fn f, cap => f cap

/-- Rule: /(?:show|list|get|find)\s+(?:all\s+)?accounts?/i -/
def showAccountsRule : Rule :=
  ⟨cseq [verbAlt, wsP, allOpt, ciStr "account", sOpt],
   .lit "SELECT Id, Name, Industry, Type, Phone, Website FROM Account LIMIT 100"⟩

/-- Rule: /accounts?\s+(?:in|from)\s+(\w+)/i -/
def accountsInRule : Rule :=
  ⟨cseq [ciStr "account", sOpt, wsP, altL [ciStr "in", ciStr "from"], wsP,
         .grp (.plus isWordChar)],
   .fn fun m =>
     "SELECT Id, Name, Industry, Type FROM Account WHERE BillingState = '" ++
     jsGroupStr m ++ "' OR BillingCountry = '" ++ jsGroupStr m ++ "' LIMIT 100"⟩

/-- Rule: /(?:largest|biggest|top)\s+accounts?/i -/
def largestAccountsRule : Rule :=
  ⟨cseq [altL [ciStr "largest", ciStr "biggest", ciStr "top"], wsP,
         ciStr "account", sOpt],
   .lit "SELECT Id, Name, AnnualRevenue, Industry FROM Account WHERE AnnualRevenue != null ORDER BY AnnualRevenue DESC LIMIT 10"⟩

/-- Rule: /(?:show|list|get|find)\s+(?:all\s+)?contacts?/i -/
def showContactsRule : Rule :=
  ⟨cseq [verbAlt, wsP, allOpt, ciStr "contact", sOpt],
   .lit "SELECT Id, Name, Email, Phone, Account.Name FROM Contact LIMIT 100"⟩

/-- Rule: /contacts?\s+(?:at|for|from)\s+(.+)/i -/
def contactsAtRule : Rule :=
  ⟨cseq [ciStr "contact", sOpt, wsP, altL [ciStr "at", ciStr "for", ciStr "from"],
         wsP, .grp (.plus isDotChar)],
   .fn fun m =>
     "SELECT Id, Name, Email, Phone FROM Contact WHERE Account.Name LIKE '%" ++
     String.mk (jsTrimL (jsGroupStr m).toList) ++ "%' LIMIT 100"⟩

/-- Rule: /(?:show|list|get|find)\s+(?:all\s+)?(?:opportunities|opps?|deals?)/i -/
def showOppsRule : Rule :=
  ⟨cseq [verbAlt, wsP, allOpt, oppAlt],
   .lit "SELECT Id, Name, Amount, StageName, CloseDate, Account.Name FROM Opportunity LIMIT 100"⟩

/-- Rule: /(?:open|active)\s+(?:opportunities|opps?|deals?)/i -/
def openOppsRule : Rule :=
  ⟨cseq [altL [ciStr "open", ciStr "active"], wsP, oppAlt],
   .lit "SELECT Id, Name, Amount, StageName, CloseDate, Account.Name FROM Opportunity WHERE IsClosed = false ORDER BY Amount DESC LIMIT 100"⟩

/-- Rule: /(?:won|closed[\s-]?won)\s+(?:opportunities|opps?|deals?)/i -/
def wonOppsRule : Rule :=
  ⟨cseq [altL [ciStr "won",
               cseq [ciStr "closed", ropt (.cls fun c => isJsWs c || c == '-'),
                     ciStr "won"]],
         wsP, oppAlt],
   .lit "SELECT Id, Name, Amount, CloseDate, Account.Name FROM Opportunity WHERE StageName = 'Closed Won' ORDER BY CloseDate DESC LIMIT 100"⟩

/-- Rule: /(?:lost|closed[\s-]?lost)\s+(?:opportunities|opps?|deals?)/i -/
def lostOppsRule : Rule :=
  ⟨cseq [altL [ciStr "lost",
               cseq [ciStr "closed", ropt (.cls fun c => isJsWs c || c == '-'),
                     ciStr "lost"]],
         wsP, oppAlt],
   .lit "SELECT Id, Name, Amount, CloseDate, Account.Name FROM Opportunity WHERE StageName = 'Closed Lost' ORDER BY CloseDate DESC LIMIT 100"⟩

/-- Rule: /(?:opportunities|deals?)\s+closing\s+(?:this\s+)?month/i -/
def closingOppsRule : Rule :=
  ⟨cseq [altL [ciStr "opportunities", .seq (ciStr "deal") sOpt], wsP,
         ciStr "closing", wsP, ropt (cseq [ciStr "this", wsP]), ciStr "month"],
   .lit "SELECT Id, Name, Amount, StageName, CloseDate, Account.Name FROM Opportunity WHERE CloseDate = THIS_MONTH AND IsClosed = false"⟩

/-- Rule: /pipeline|forecast/i -/
def pipelineRule : Rule :=
  ⟨altL [ciStr "pipeline", ciStr "forecast"],
   .lit "SELECT StageName, COUNT(Id) numDeals, SUM(Amount) totalValue FROM Opportunity WHERE IsClosed = false GROUP BY StageName"⟩

/-- Rule: /(?:show|list|get|find)\s+(?:all\s+)?leads?/i -/
def showLeadsRule : Rule :=
  ⟨cseq [verbAlt, wsP, allOpt, ciStr "lead", sOpt],
   .lit "SELECT Id, Name, Email, Company, Status, LeadSource FROM Lead LIMIT 100"⟩

/-- Rule: /(?:new|recent)\s+leads?/i -/
def newLeadsRule : Rule :=
  ⟨cseq [altL [ciStr "new", ciStr "recent"], wsP, ciStr "lead", sOpt],
   .lit "SELECT Id, Name, Email, Company, Status, CreatedDate FROM Lead ORDER BY CreatedDate DESC LIMIT 50"⟩

/-- Rule: /(?:hot|qualified)\s+leads?/i -/
def hotLeadsRule : Rule :=
  ⟨cseq [altL [ciStr "hot", ciStr "qualified"], wsP, ciStr "lead", sOpt],
   .lit "SELECT Id, Name, Email, Company, Status FROM Lead WHERE Rating = 'Hot' OR Status = 'Qualified' LIMIT 100"⟩

/-- Rule: /(?:show|list|get|find)\s+(?:all\s+)?(?:cases?|tickets?)/i -/
def showCasesRule : Rule :=
  ⟨cseq [verbAlt, wsP, allOpt, caseAlt],
   .lit "SELECT Id, CaseNumber, Subject, Status, Priority, Account.Name FROM Case LIMIT 100"⟩

/-- Rule: /(?:open|active)\s+(?:cases?|tickets?)/i -/
def openCasesRule : Rule :=
  ⟨cseq [altL [ciStr "open", ciStr "active"], wsP, caseAlt],
   .lit "SELECT Id, CaseNumber, Subject, Status, Priority, Account.Name FROM Case WHERE IsClosed = false ORDER BY Priority LIMIT 100"⟩

/-- Rule: /(?:show|list|get|find)\s+(?:all\s+)?users?/i -/
def showUsersRule : Rule :=
  ⟨cseq [verbAlt, wsP, allOpt, ciStr "user", sOpt],
   .lit "SELECT Id, Name, Email, Profile.Name, IsActive FROM User WHERE IsActive = true LIMIT 100"⟩

/-- Rule: /(?:how many|count)\s+accounts?/i -/
def countAccountsRule : Rule :=
  ⟨cseq [altL [ciStr "how many", ciStr "count"], wsP, ciStr "account", sOpt],
   .lit "SELECT COUNT() FROM Account"⟩

/-- Rule: /(?:how many|count)\s+contacts?/i -/
def countContactsRule : Rule :=
  ⟨cseq [altL [ciStr "how many", ciStr "count"], wsP, ciStr "contact", sOpt],
   .lit "SELECT COUNT() FROM Contact"⟩

/-- Rule: /(?:how many|count)\s+(?:opportunities|deals?)/i -/
def countOppsRule : Rule :=
  ⟨cseq [altL [ciStr "how many", ciStr "count"], wsP,
         altL [ciStr "opportunities", .seq (ciStr "deal") sOpt]],
   .lit "SELECT COUNT() FROM Opportunity"⟩

/-- Rule: /(?:how many|count)\s+leads?/i -/
def countLeadsRule : Rule :=
  ⟨cseq [altL [ciStr "how many", ciStr "count"], wsP, ciStr "lead", sOpt],
   .lit "SELECT COUNT() FROM Lead"⟩

/-- this.patterns, in declaration order. -/
def patterns : List Rule :=
  [showAccountsRule, accountsInRule, largestAccountsRule,
   showContactsRule, contactsAtRule,
   showOppsRule, openOppsRule, wonOppsRule, lostOppsRule, closingOppsRule,
   pipelineRule,
   showLeadsRule, newLeadsRule, hotLeadsRule,
   showCasesRule, openCasesRule,
   showUsersRule,
   countAccountsRule, countContactsRule, countOppsRule, countLeadsRule]

/-! ## convert -/

/-- The fallback pattern /\b(account|contact|lead|opportunity|case|user)s?\b/i . -/
def objectRe : Re :=
  cseq [.wordB,
        .grp (altL [ciStr "account", ciStr "contact", ciStr "lead",
                    ciStr "opportunity", ciStr "case", ciStr "user"]),
        sOpt, .wordB]

/-- The expression objectMatch[1].charAt(0).toUpperCase() +
objectMatch[1].slice(1).toLowerCase(). -/
def capitalizeJs (s : String) : String :=
  match s.toList with
  | [] => ""
  | c :: rest => String.mk (asciiUpper c :: rest.map asciiLower)

/-- Test input.toUpperCase().startsWith('SELECT') ||
input.toUpperCase().startsWith('FIND'). -/
def isSelectOrFind (l : List Char) : Bool :=
  startsWithL (l.map asciiUpper) "SELECT".toList ||
  startsWithL (l.map asciiUpper) "FIND".toList

/-- The fixed help message of the no-match branch. -/
def errHelp : String :=
  "Could not understand the query. Try: \"show all accounts\", \"open opportunities\", \"contacts at Acme Corp\""

/-- Result of convert.  The source returns object literals with varying
fields; absent fields are normalised to none, absent isRaw to false.
The purely diagnostic pattern field of the 0.9 branch (the matched
regex's toString) is not modelled. -/
structure ConvResult where
  soql : Option String
  confidence : ℚ
  isRaw : Bool
  suggestion : Option String
  error : Option String
deriving DecidableEq

/-- The for-loop over this.patterns: first rule whose pattern matches
produces the query from its template. -/
def scanRules : List Rule → List Char → Option String
  | [], _ => none
  | r :: rs, input =>
    match reMatch r.pattern input with
    | some cap => some (applyTemplate r.template cap)
    | none => scanRules rs input

/-- NLPQueryConverter.convert. -/
def convert (naturalLanguage : String) : ConvResult :=
  let inputL := jsTrimL naturalLanguage.toList
  if isSelectOrFind inputL then
    ⟨some (String.mk inputL), 1, true, none, none⟩
  else
    match scanRules patterns inputL with
    | some soql => ⟨some soql, 9/10, false, none, none⟩
    | none =>
      match reMatch objectRe inputL with
      | some cap =>
        let objectName := capitalizeJs (jsGroupStr cap)
        ⟨some ("SELECT Id, Name FROM " ++ objectName ++ " LIMIT 50"),
         1/2, false,
         some ("Could not parse specific query. Showing " ++ objectName ++ " records."),
         none⟩
      | none => ⟨none, 0, false, none, some errHelp⟩

/-! ## MCP client (class MCPClient) -/

/-- JSON values, as carried in params / result fields.  The client never
inspects these payloads; they ride along opaquely. -/
inductive JVal where
  | null
  | bool (b : Bool)
  | num (n : Int)
  | str (s : String)
  | arr (xs : List JVal)
  | obj (fields : List (String × JVal))

/-- A JSON-RPC error object {code, message}; message may be absent. -/
structure JErr where
  code : Int
  message : Option String

/-- A parsed JSON-RPC message as far as handleMessage looks at it:
optional id, method, result, error.  A field that is absent (or null,
for error, which the source tests for truthiness) is none. -/
structure Msg where
  id : Option Nat
  method : Option String
  params : Option JVal
  result : Option JVal
  error : Option JErr

/-- The completion of a caller's promise: resolve(message.result) or
reject(new Error(...)). -/
inductive Outcome where
  | resolved (v : Option JVal)
  | rejected (msg : String)

/-- The expression message.error.message || 'MCP error'. -/
def errText (e : JErr) : String :=
  match e.message with
  | some s => if s = "" then "MCP error" else s
  | none => "MCP error"

/-- State of one MCPClient.  pendingRequests is the Map from id to the
promise callbacks, modelled as an association list from id to the request
method (the callbacks' identity is the id itself: completing id i settles
the promise of the caller who sent request i).  completions records, in
order, every resolve/reject performed; written records every request
written to the child's stdin; armed records the ids whose 30-second
timeout timer was armed; buffer is this.buffer of the framer; procAlive
models this.process !== null. -/
structure CState where
  requestId : Nat
  pending : List (Nat × String)
  armed : List Nat
  completions : List (Nat × Outcome)
  notifications : List Msg
  written : List Msg
  buffer : List Char
  connected : Bool
  procAlive : Bool

/-- Map.get on the pending table (as the method stored for the id). -/
def lookupPend (ps : List (Nat × String)) (i : Nat) : Option String :=
  match ps.find? (fun e => e.1 == i) with
  | some e => some e.2
  | none => none

/-- Map.delete on the pending table. -/
def removePend (ps : List (Nat × String)) (i : Nat) : List (Nat × String) :=
  ps.filter (fun e => !(e.1 == i))

/-- Map.set on the pending table (overwrite in place if the key exists,
else append; ids are in fact always fresh). -/
def pendSet (ps : List (Nat × String)) (i : Nat) (m : String) : List (Nat × String) :=
  if (ps.find? (fun e => e.1 == i)).isSome then
    ps.map (fun e => if e.1 == i then (i, m) else e)
  else ps ++ [(i, m)]

/-- The request object written by sendRequest. -/
def mkRequest (i : Nat) (method : String) (params : JVal) : Msg :=
  ⟨some i, some method, some params, none, none⟩

/-- How a sendRequest call presents to its caller: a pending promise for
id i, or an immediate rejection because this.process is null (the
TypeError thrown inside the promise executor at this.process.stdin). -/
inductive SendOutcome where
  | ok (i : Nat)
  | nullProcessError
deriving DecidableEq

/-- MCPClient.sendRequest.  The executor increments this.requestId,
registers the pending entry, and then writes; with a null process the
write line throws, so nothing is written and no timeout is armed, but the
id allocation and the pending registration have already happened. -/
def sendRequest (st : CState) (method : String) (params : JVal) :
    CState × SendOutcome :=
  let i := st.requestId + 1
  let st1 := { st with requestId := i, pending := pendSet st.pending i method }
  if st.procAlive then
    ({ st1 with written := st1.written ++ [mkRequest i method params],
                armed := st1.armed ++ [i] }, .ok i)
  else (st1, .nullProcessError)

/-- MCPClient.handleMessage.  A message whose id has a pending entry is a
response: the entry is deleted first, then the promise is rejected (error
field truthy) or resolved with message.result.  Otherwise a message with
a method is a notification.  Anything else is dropped. -/
def handleMessage (st : CState) (m : Msg) : CState :=
  match m.id with
  | some i =>
    if (lookupPend st.pending i).isSome then
      { st with
        pending := removePend st.pending i,
        completions := st.completions ++
          [(i, match m.error with
               | some e => .rejected (errText e)
               | none => .resolved m.result)] }
    else
      match m.method with
      | some _ => { st with notifications := st.notifications ++ [m] }
      | none => st
  | none =>
    match m.method with
    | some _ => { st with notifications := st.notifications ++ [m] }
    | none => st

/-- The 30-second timer of request i firing: if the entry is still
pending it is deleted and the promise rejected with the timeout error
naming the method; a timer only exists for armed ids. -/
def fireTimeout (st : CState) (i : Nat) : CState :=
  if st.armed.contains i then
    match lookupPend st.pending i with
    | some m =>
      { st with
        pending := removePend st.pending i,
        completions := st.completions ++
          [(i, .rejected ("Request timeout: " ++ m))] }
    | none => st
  else st

/-- MCPClient.disconnect: kill the child and null the handle; idempotent;
pending entries are left alone. -/
def disconnect (st : CState) : CState :=
  if st.procAlive then { st with procAlive := false, connected := false }
  else st

/-! ## Incoming-stream framing (MCPClient.handleData) -/

/-- String.prototype.split('\n') on a character list: the segments
between newlines, in order; one more segment than newlines; the last
segment is the text after the final newline (possibly empty). -/
def splitNl : List Char → List (List Char)
  | [] => [[]]
  | c :: rest =>
    if c = '\n' then [] :: splitNl rest
    else (splitNl rest).modifyHead (fun h => c :: h)

/-- Handling of one complete line: skipped if blank (line.trim() falsy),
skipped if JSON.parse throws (parse = none, the catch logs and drops),
otherwise dispatched to handleMessage. -/
def dispatchLine (parse : List Char → Option Msg) (st : CState)
    (line : List Char) : CState :=
  if jsTrimL line = [] then st
  else
    match parse line with
    | some m => handleMessage st m
    | none => st

/-- The for-loop over the complete lines. -/
def processLines (parse : List Char → Option Msg) (st : CState)
    (ls : List (List Char)) : CState :=
  ls.foldl (dispatchLine parse) st

/-- MCPClient.handleData: append the chunk to this.buffer, split on
newlines, keep the trailing (incomplete) segment as the new buffer, and
dispatch each complete line. -/
def handleData (parse : List Char → Option Msg) (st : CState)
    (data : List Char) : CState :=
  let ls := splitNl (st.buffer ++ data)
  processLines parse { st with buffer := ls.getLastD [] } ls.dropLast

/-! ## Client event traces -/

/-- The events that drive one client: a sendRequest call, a chunk of
stdout data, a request timer firing, the child's close event, and a
disconnect call. -/
inductive CEvent where
  | send (method : String) (params : JVal)
  | recvData (data : List Char)
  | fire (i : Nat)
  | procClose
  | discon

/-- One event step. -/
def stepEv (parse : List Char → Option Msg) (st : CState) (e : CEvent) : CState :=
  match e with
  | .send m p => (sendRequest st m p).1
  | .recvData d => handleData parse st d
  | .fire i => fireTimeout st i
  | .procClose => { st with connected := false }
  | .discon => disconnect st

/-- The state of a freshly constructed client (constructor of MCPClient):
requestId 0, empty tables, empty buffer, no process. -/
def initClient : CState :=
  ⟨0, [], [], [], [], [], [], false, false⟩

/-- The client just after connect has spawned the child process. -/
def connectedClient : CState :=
  { initClient with connected := true, procAlive := true }

/-- Run a trace of events from the connected client. -/
def runEvents (parse : List Char → Option Msg) (evs : List CEvent) : CState :=
  evs.foldl (stepEv parse) connectedClient

/-! ## Registry (class MCPManager) -/

/-- A tool as returned by a server's tools/list: name, optional
description, optional input schema. -/
structure ToolSpec where
  name : String
  description : Option String
  inputSchema : Option JVal

/-- A catalog entry of this.allTools: the tool's fields plus serverName
and fullName = serverName ++ "__" ++ name. -/
structure RegTool where
  name : String
  description : Option String
  inputSchema : Option JVal
  serverName : String
  fullName : String

/-- The registry's view of one connected client: its connected flag and
the tools it listed (client.tools, for getStatus). -/
structure MClientS where
  connected : Bool
  tools : List ToolSpec

/-- MCPManager state: this.clients (a Map from server name to client)
and this.allTools. -/
structure MState where
  clients : List (String × MClientS)
  allTools : List RegTool

/-- The manager with no servers (constructor of MCPManager). -/
def emptyManager : MState := ⟨[], []⟩

/-- Map.get on this.clients. -/
def lookupClient (cs : List (String × MClientS)) (n : String) : Option MClientS :=
  match cs.find? (fun e => e.1 == n) with
  | some e => some e.2
  | none => none

/-- Map.set on this.clients (overwrite in place if present, else append). -/
def clientsSet (cs : List (String × MClientS)) (n : String) (c : MClientS) :
    List (String × MClientS) :=
  if (cs.find? (fun e => e.1 == n)).isSome then
    cs.map (fun e => if e.1 == n then (n, c) else e)
  else cs ++ [(n, c)]

/-- The outcome of the two awaited calls in addServer, supplied by the
environment: client.connect() can reject on process spawn error or on
handshake failure; client.listTools() can reject; or both succeed with a
tool list. -/
inductive ConnOutcome where
  | spawnErr (msg : String)
  | handshakeErr (msg : String)
  | listErr (msg : String)
  | ok (tools : List ToolSpec)

/-- The value returned by addServer. -/
structure AddResult where
  success : Bool
  tools : List ToolSpec
  error : Option String

/-- Qualified name of a tool: the template `${config.name}__${tool.name}`. -/
def qualName (server tool : String) : String := server ++ "__" ++ tool

/-- The catalog entries appended for one server's tool list: each tool
spread with serverName and fullName added. -/
def toolEntries (name : String) (tools : List ToolSpec) : List RegTool :=
  tools.map (fun t =>
    ⟨t.name, t.description, t.inputSchema, name, qualName name t.name⟩)

/-- MCPManager.addServer.  Both awaits precede every mutation: on any
rejection the catch returns the failure result and this.clients and
this.allTools are untouched; on success the client is stored and each
tool is appended to this.allTools with the server-name qualification. -/
def addServer (st : MState) (name : String) (outcome : ConnOutcome) :
    MState × AddResult :=
  match outcome with
  | .spawnErr e => (st, ⟨false, [], some e⟩)
  | .handshakeErr e => (st, ⟨false, [], some e⟩)
  | .listErr e => (st, ⟨false, [], some e⟩)
  | .ok tools =>
    ({ clients := clientsSet st.clients name ⟨true, tools⟩,
       allTools := st.allTools ++ toolEntries name tools },
     ⟨true, tools, none⟩)

/-- What MCPManager.executeTool does with a fullName: throw for an
unknown tool, throw when the owning client is missing or not connected,
or delegate to that client's callTool with the tool's local name. -/
inductive ExecAction where
  | unknownTool (fullName : String)
  | notConnected (serverName : String)
  | call (serverName : String) (toolName : String)
deriving DecidableEq

/-- MCPManager.executeTool: find the first catalog entry with the given
fullName, look up its server's client, check the connected flag, and
delegate. -/
def executeTool (st : MState) (fullName : String) : ExecAction :=
  match st.allTools.find? (fun t => t.fullName == fullName) with
  | none => .unknownTool fullName
  | some tool =>
    match lookupClient st.clients tool.serverName with
    | none => .notConnected tool.serverName
    | some c =>
      if c.connected then .call tool.serverName tool.name
      else .notConnected tool.serverName

/-- Register a sequence of servers that all succeed with the given tool
lists. -/
def registerAll (st : MState) (regs : List (String × List ToolSpec)) : MState :=
  regs.foldl (fun s r => (addServer s r.1 (.ok r.2)).1) st

/-- Well-formedness of a client's id bookkeeping: every pending or
completed id is at most the allocation counter requestId, the pending ids
and the completed ids are each duplicate-free, and no id is both pending
and completed.  It holds in every reachable client state and is what
makes "each request is completed at most once" true. -/
def GoodIds (st : CState) : Prop :=
  (∀ e ∈ st.pending, e.1 ≤ st.requestId) ∧
  (∀ e ∈ st.completions, e.1 ≤ st.requestId) ∧
  (st.pending.map Prod.fst).Nodup ∧
  (st.completions.map Prod.fst).Nodup ∧
  ∀ i, i ∈ st.pending.map Prod.fst → i ∉ st.completions.map Prod.fst

/-! ## Lemmas -/

/-- Rules whose patterns fail do not affect the scan. -/
theorem scanRules_append_none (pre rest : List Rule) (inp : List Char)
    (h : ∀ p ∈ pre, reMatch p.pattern inp = none) :
    scanRules (pre ++ rest) inp = scanRules rest inp := by
  induction pre with
  | nil => rfl
  | cons r rs ih =>
    have hr : reMatch r.pattern inp = none := h r (by simp)
    simp only [List.cons_append, scanRules, hr]
    exact ih fun p hp => h p (by simp [hp])

/-! ## Claim theorems -/

/-- Claim C1 (counterexample).  The claim "for every input that matches
rule k's pattern and no earlier rule's pattern, convert returns rule k's
template with confidence 0.9" is false as stated: "find accounts" matches
the first rule's pattern (and vacuously no earlier rule), yet convert
takes the raw-SOQL passthrough branch first, because the trimmed input
starts with FIND, and returns the input itself with confidence 1.0. -/
theorem convert_first_rule_cex :
    reMatch showAccountsRule.pattern (jsTrimL ("find accounts").toList) = some none ∧
    (convert "find accounts").soql = some "find accounts" ∧
    (convert "find accounts").isRaw = true ∧
    (convert "find accounts").soql ≠ some (applyTemplate showAccountsRule.template none) := by
  exact ⟨by decide, rfl, rfl, by decide⟩

/-- Claim C1 (amended).  For every input whose trimmed form does not
already start (case-insensitively) with SELECT or FIND: if the trimmed
input matches rule r's pattern and the pattern of no rule listed before
r, convert returns the query produced by applying r's template to the
match, with confidence 0.9 — ties between overlapping patterns resolve to
the earliest-listed rule. -/
theorem convert_first_rule_wins (input : String) (pre post : List Rule)
    (r : Rule) (cap : MRes)
    (hpat : patterns = pre ++ r :: post)
    (hraw : isSelectOrFind (jsTrimL input.toList) = false)
    (hpre : ∀ p ∈ pre, reMatch p.pattern (jsTrimL input.toList) = none)
    (hr : reMatch r.pattern (jsTrimL input.toList) = some cap) :
    convert input =
      ⟨some (applyTemplate r.template cap), 9/10, false, none, none⟩ := by
  unfold convert
  simp only [hraw, Bool.false_eq_true, if_false]
  rw [hpat, scanRules_append_none pre _ _ hpre]
  simp only [scanRules, hr]

/-- Claim C1 (witness).  "accounts in California" fails the first rule,
matches the second with capture "California", and convert returns the
second rule's template applied to that capture. -/
theorem convert_first_rule_wins_witness :
    convert "accounts in California" =
      ⟨some (applyTemplate accountsInRule.template (some "California".toList)),
       9/10, false, none, none⟩ :=
  convert_first_rule_wins "accounts in California" [showAccountsRule]
    [largestAccountsRule, showContactsRule, contactsAtRule, showOppsRule,
     openOppsRule, wonOppsRule, lostOppsRule, closingOppsRule, pipelineRule,
     showLeadsRule, newLeadsRule, hotLeadsRule, showCasesRule, openCasesRule,
     showUsersRule, countAccountsRule, countContactsRule, countOppsRule,
     countLeadsRule]
    accountsInRule (some "California".toList) rfl (by decide)
    (by intro p hp
        simp only [List.mem_singleton] at hp
        subst hp
        decide)
    (by decide)

/-- Claim C2 (counterexample).  The claim "convert returns that input
unchanged as the query" fails for an input with surrounding whitespace:
the passthrough branch returns the trimmed input, not the input itself. -/
theorem convert_raw_passthrough_cex :
    (convert "  select Id from Account  ").isRaw = true ∧
    (convert "  select Id from Account  ").soql ≠ some "  select Id from Account  " ∧
    (convert "  select Id from Account  ").soql = some "select Id from Account" := by
  exact ⟨rfl, by decide, rfl⟩

/-- Claim C2 (amended).  For every input whose trimmed form starts
case-insensitively with SELECT or FIND, convert returns the trimmed input
as the query, with confidence 1.0 and isRaw (the raw-passthrough flag)
set. -/
theorem convert_raw_passthrough (input : String)
    (h : isSelectOrFind (jsTrimL input.toList) = true) :
    convert input =
      ⟨some (String.mk (jsTrimL input.toList)), 1, true, none, none⟩ := by
  unfold convert
  simp only [h, if_true]

/-- Claim C2 (witness): a SELECT query with surrounding whitespace passes
through trimmed, with confidence 1.0 and the flag set. -/
theorem convert_raw_passthrough_witness :
    convert "  select Id from Account  " =
      ⟨some "select Id from Account", 1, true, none, none⟩ :=
  (convert_raw_passthrough "  select Id from Account  " (by decide)).trans rfl

/-- Claim C3.  For every input, exactly one of the query field (soql) and
the error field of the result of convert is non-null: every branch that
returns a query returns no error, and the no-match branch returns a null
query with a non-null error. -/
theorem convert_query_error_exclusive (s : String) :
    ((convert s).soql.isSome = true ∧ (convert s).error = none) ∨
    ((convert s).soql = none ∧ (convert s).error.isSome = true) := by
  by_cases h : isSelectOrFind (jsTrimL s.data) = true
  · left
    simp [convert, h]
  · rcases hs : scanRules patterns (jsTrimL s.data) with _ | q
    · rcases ho : reMatch objectRe (jsTrimL s.data) with _ | cap
      · right
        simp [convert, h, hs, ho]
      · left
        simp [convert, h, hs, ho]
    · left
      simp [convert, h, hs]

/-- Claim C4.  The claim (and the spec) require interpolated free text to
be escaped before being embedded in a quoted literal of the output query;
the source interpolates naively.  On the failing input
"contacts at O'Brien" the captured group O'Brien is embedded verbatim, so
the single quote terminates the LIKE string literal of the produced
query: the code contradicts the spec's stated requirement. -/
theorem convert_interpolates_unescaped_quote :
    convert "contacts at O'Brien" =
      ⟨some "SELECT Id, Name, Email, Phone FROM Contact WHERE Account.Name LIKE '%O'Brien%' LIMIT 100",
       9/10, false, none, none⟩ := rfl

/-- Claim C8.  For every registration attempt that fails — at process
spawn, at connect/handshake, or at capability (tools/list) enumeration —
addServer returns a failure result carrying the error message, and the
registry's provider table (clients) and capability catalog (allTools) are
exactly as they were before the call: no partial registration remains. -/
theorem addServer_failure_leaves_no_trace (st : MState) (name e : String) :
    addServer st name (.spawnErr e) = (st, ⟨false, [], some e⟩) ∧
    addServer st name (.handshakeErr e) = (st, ⟨false, [], some e⟩) ∧
    addServer st name (.listErr e) = (st, ⟨false, [], some e⟩) :=
  ⟨rfl, rfl, rfl⟩

/-- Claim C10 (counterexample).  The claim says a sendRequest on a client
whose process handle is null fails without registering a pending entry.
In fact the executor registers the pending entry before the line that
throws: after disconnect, sendRequest rejects with the null-process error
but the pending table has gained the entry. -/
theorem sendRequest_null_process_cex :
    (sendRequest (disconnect connectedClient) "tools/list" .null).2 =
      .nullProcessError ∧
    (sendRequest (disconnect connectedClient) "tools/list" .null).1.pending ≠
      (disconnect connectedClient).pending ∧
    (sendRequest (disconnect connectedClient) "tools/list" .null).1.pending =
      [(1, "tools/list")] := by
  exact ⟨rfl, by decide, rfl⟩

/-- Claim C10 (amended).  On a client whose process handle is null (after
disconnect, or never connected), sendRequest fails immediately with the
null-process error — before writing anything and before arming the
30-second timeout — but it has already allocated the next identifier and
registered a pending entry, which stays in the table. -/
theorem sendRequest_null_process (st : CState) (method : String) (params : JVal)
    (h : st.procAlive = false) :
    sendRequest st method params =
      ({ st with requestId := st.requestId + 1,
                 pending := pendSet st.pending (st.requestId + 1) method },
       .nullProcessError) := by
  simp [sendRequest, h]

/-- Claim C10 (witness): the amended statement evaluated on a
disconnected client. -/
theorem sendRequest_null_process_witness :
    sendRequest (disconnect connectedClient) "tools/call" .null =
      ({ disconnect connectedClient with
           requestId := 1, pending := [(1, "tools/call")] },
       .nullProcessError) :=
  (sendRequest_null_process (disconnect connectedClient) "tools/call" .null
    rfl).trans rfl

/-- Deleting one key of the pending table leaves the lookup of every
other key unchanged. -/
theorem lookupPend_removePend_ne (ps : List (Nat × String)) (i j : Nat)
    (hne : j ≠ i) :
    lookupPend (removePend ps i) j = lookupPend ps j := by
  induction ps with
  | nil => rfl
  | cons e ps ih =>
    by_cases he : e.1 = i
    · have h1 : (!(e.1 == i)) = false := by simp [he]
      have h2 : (e.1 == j) = false := by
        simp only [beq_eq_false_iff_ne, ne_eq]
        exact fun h => hne (h ▸ he)
      simp only [removePend, List.filter_cons, h1, Bool.false_eq_true, if_false]
      simp only [removePend] at ih
      rw [ih]
      simp [lookupPend, List.find?_cons_of_neg, h2]
    · have h1 : (!(e.1 == i)) = true := by simp [he]
      simp only [removePend, List.filter_cons, h1, if_true]
      by_cases hej : e.1 = j
      · simp [lookupPend, List.find?_cons_of_pos, hej]
      · have h2 : (e.1 == j) = false := by simp [hej]
        simp only [lookupPend, List.find?_cons, h2, Bool.false_eq_true, if_false]
        simp only [removePend, lookupPend] at ih ⊢
        exact ih

/-- Claim C5.  For a client with pending requests 1 and 2, receiving the
response carrying id 2 first and the response carrying id 1 second
completes request 2 with the result of the id-2 response and request 1
with the result of the id-1 response: responses are matched strictly by
identifier, never by arrival order. -/
theorem handleMessage_matches_by_id (st : CState) (r1 r2 : JVal)
    (h1 : (lookupPend st.pending 1).isSome = true)
    (h2 : (lookupPend st.pending 2).isSome = true) :
    (handleMessage (handleMessage st ⟨some 2, none, none, some r2, none⟩)
        ⟨some 1, none, none, some r1, none⟩).completions =
      st.completions ++ [(2, .resolved (some r2)), (1, .resolved (some r1))] := by
  have h1x : (lookupPend (removePend st.pending 2) 1).isSome = true := by
    rw [lookupPend_removePend_ne st.pending 2 1 (by decide)]
    exact h1
  simp [handleMessage, h2, h1x]

/-- Claim C5 (witness): after two sends (ids 1 and 2), responses arriving
in order 2-then-1 complete id 2 with result 7 and id 1 with result 5. -/
theorem handleMessage_matches_by_id_witness :
    (handleMessage
        (handleMessage
          (sendRequest (sendRequest connectedClient "tools/list" .null).1
              "tools/call" .null).1
          ⟨some 2, none, none, some (.num 7), none⟩)
        ⟨some 1, none, none, some (.num 5), none⟩).completions =
      [(2, .resolved (some (.num 7))), (1, .resolved (some (.num 5)))] :=
  (handleMessage_matches_by_id
    (sendRequest (sendRequest connectedClient "tools/list" .null).1
        "tools/call" .null).1
    (.num 5) (.num 7) rfl rfl).trans rfl

/-! ## Framing lemmas -/

/-- modifyHead of a cons applies the function to the head. -/
theorem modifyHead_cons_eq (f : List Char → List Char) (a : List Char)
    (l : List (List Char)) : (a :: l).modifyHead f = f a :: l := rfl

/-- modifyHead by a function that only prepends nothing is the identity. -/
theorem modifyHead_nil_append (l : List (List Char)) :
    l.modifyHead (fun h => [] ++ h) = l := by
  cases l <;> rfl

/-- splitNl step at a newline. -/
theorem splitNl_cons_nl (rest : List Char) :
    splitNl ('\n' :: rest) = [] :: splitNl rest := by
  simp [splitNl]

/-- splitNl step at an ordinary character. -/
theorem splitNl_cons_other (c : Char) (rest : List Char) (hc : c ≠ '\n') :
    splitNl (c :: rest) = (splitNl rest).modifyHead (fun h => c :: h) := by
  simp [splitNl, hc]

/-- Two modifyHead applications compose. -/
theorem modifyHead_modifyHead (f g : List Char → List Char)
    (l : List (List Char)) :
    (l.modifyHead g).modifyHead f = l.modifyHead (fun h => f (g h)) := by
  cases l <;> rfl

/-- modifyHead preserves nonemptiness. -/
theorem modifyHead_ne_nil (f : List Char → List Char) (l : List (List Char))
    (h : l ≠ []) : l.modifyHead f ≠ [] := by
  cases l with
  | nil => exact absurd rfl h
  | cons a t => simp [List.modifyHead]

/-- splitNl never returns the empty list of segments. -/
theorem splitNl_ne_nil (l : List Char) : splitNl l ≠ [] := by
  induction l with
  | nil => simp [splitNl]
  | cons c rest ih =>
    by_cases hc : c = '\n'
    · simp [splitNl, hc]
    · simp only [splitNl, hc, if_false]
      exact modifyHead_ne_nil _ _ ih

/-- The default of getLastD is irrelevant on a nonempty list. -/
theorem getLastD_irrel (l : List (List Char)) (d1 d2 : List Char)
    (h : l ≠ []) : l.getLastD d1 = l.getLastD d2 := by
  cases l with
  | nil => exact absurd rfl h
  | cons a t => rfl

/-- getLastD of an append with nonempty right part ignores the left part. -/
theorem getLastD_append_right (l1 l2 : List (List Char)) (d : List Char)
    (h : l2 ≠ []) : (l1 ++ l2).getLastD d = l2.getLastD d := by
  induction l1 generalizing d with
  | nil => rfl
  | cons a t ih =>
    rw [List.cons_append, List.getLastD_cons, ih a]
    exact getLastD_irrel l2 a d h

/-- dropLast of an append with nonempty right part keeps the whole left
part. -/
theorem dropLast_append_right (l1 l2 : List (List Char)) (h : l2 ≠ []) :
    (l1 ++ l2).dropLast = l1 ++ l2.dropLast := by
  rcases l2 with _ | ⟨b, l2⟩
  · exact absurd rfl h
  · exact List.dropLast_append_cons

/-- String.split('\n') of a concatenation: the segments of the left part,
with the last (incomplete) one glued onto the first segment of the right
part. -/
theorem splitNl_append (x y : List Char) :
    splitNl (x ++ y) =
      (splitNl x).dropLast ++
        (splitNl y).modifyHead (fun h => (splitNl x).getLastD [] ++ h) := by
  induction x with
  | nil =>
    rw [List.nil_append]
    exact (modifyHead_nil_append (splitNl y)).symm
  | cons c rest ih =>
    obtain ⟨h, t, hsr⟩ := List.exists_cons_of_ne_nil (splitNl_ne_nil rest)
    by_cases hc : c = '\n'
    · subst hc
      rw [List.cons_append, splitNl_cons_nl, splitNl_cons_nl, ih, hsr,
          List.dropLast_cons₂]
      conv_rhs => rw [List.getLastD_cons, List.cons_append]
    · rw [List.cons_append, splitNl_cons_other c _ hc, splitNl_cons_other c _ hc,
          ih, hsr]
      rcases t with _ | ⟨t1, t2⟩
      · simp only [modifyHead_cons_eq, List.dropLast_single, List.nil_append,
                   List.getLastD_cons, List.getLastD_nil, modifyHead_modifyHead]
        rfl
      · simp only [modifyHead_cons_eq, List.dropLast_cons₂, List.cons_append,
                   List.getLastD_cons]

/-- The trailing segment kept by splitNl contains no newline. -/
theorem splitNl_getLastD_no_nl (l : List Char) :
    '\n' ∉ (splitNl l).getLastD [] := by
  induction l with
  | nil => simp [splitNl]
  | cons c rest ih =>
    obtain ⟨h, t, hsr⟩ := List.exists_cons_of_ne_nil (splitNl_ne_nil rest)
    by_cases hc : c = '\n'
    · subst hc
      rw [splitNl_cons_nl, hsr, List.getLastD_cons]
      rw [hsr] at ih
      exact ih
    · rw [splitNl_cons_other c rest hc, hsr, modifyHead_cons_eq]
      rw [hsr] at ih
      rcases t with _ | ⟨t1, t2⟩
      · rw [List.getLastD_cons, List.getLastD_nil]
        rw [List.getLastD_cons, List.getLastD_nil] at ih
        simp only [List.mem_cons, not_or]
        exact ⟨fun he => hc he.symm, ih⟩
      · rw [List.getLastD_cons]
        rw [List.getLastD_cons] at ih
        rw [getLastD_irrel (t1 :: t2) (c :: h) h (by simp)]
        exact ih

/-- A chunk without newline splits into the single segment itself. -/
theorem splitNl_no_nl_eq (l : List Char) (h : '\n' ∉ l) : splitNl l = [l] := by
  induction l with
  | nil => rfl
  | cons c rest ih =>
    have hc : c ≠ '\n' := fun e => h (by rw [e]; exact List.mem_cons_self _ _)
    rw [splitNl_cons_other c rest hc, ih fun m => h (List.mem_cons_of_mem c m)]
    rfl

/-- handleMessage never touches the framer's buffer: it commutes with
overriding the buffer field. -/
theorem handleMessage_buffer (st : CState) (m : Msg) (x : List Char) :
    handleMessage { st with buffer := x } m =
      { handleMessage st m with buffer := x } := by
  rcases m with ⟨mid, mm, mp, mr, me⟩
  cases mid with
  | none => cases mm <;> rfl
  | some i =>
    by_cases h : (lookupPend st.pending i).isSome = true
    · simp [handleMessage, h]
    · simp only [handleMessage, h, Bool.false_eq_true, if_false]
      cases mm <;> rfl

/-- Dispatching one line commutes with overriding the buffer field. -/
theorem dispatchLine_buffer (parse : List Char → Option Msg) (st : CState)
    (line x : List Char) :
    dispatchLine parse { st with buffer := x } line =
      { dispatchLine parse st line with buffer := x } := by
  unfold dispatchLine
  by_cases ht : jsTrimL line = []
  · simp [ht]
  · simp only [ht, if_false]
    cases parse line with
    | none => rfl
    | some m => exact handleMessage_buffer st m x

/-- Processing a batch of lines commutes with overriding the buffer. -/
theorem processLines_buffer (parse : List Char → Option Msg)
    (ls : List (List Char)) :
    ∀ (st : CState) (x : List Char),
      processLines parse { st with buffer := x } ls =
        { processLines parse st ls with buffer := x } := by
  induction ls with
  | nil => intro st x; rfl
  | cons l ls ih =>
    intro st x
    show processLines parse (dispatchLine parse { st with buffer := x } l) ls = _
    rw [dispatchLine_buffer, ih]
    rfl

/-- handleData in closed form: dispatch the complete lines of
buffer ++ data with the buffer already set to the trailing fragment. -/
theorem handleData_eq (parse : List Char → Option Msg) (st : CState)
    (data : List Char) :
    handleData parse st data =
      { processLines parse st (splitNl (st.buffer ++ data)).dropLast
        with buffer := (splitNl (st.buffer ++ data)).getLastD [] } := by
  simp only [handleData]
  rw [processLines_buffer]

/-- Appending batches of lines is processing them in sequence. -/
theorem processLines_append (parse : List Char → Option Msg) (st : CState)
    (u v : List (List Char)) :
    processLines parse st (u ++ v) =
      processLines parse (processLines parse st u) v := by
  simp only [processLines, List.foldl_append]

/-- Splitting a fragment-plus-chunk: the trailing fragment of the
previous read glues onto the first segment of the next chunk. -/
theorem splitNl_frag_append (x b : List Char) :
    splitNl ((splitNl x).getLastD [] ++ b) =
      (splitNl b).modifyHead (fun h => (splitNl x).getLastD [] ++ h) := by
  rw [splitNl_append, splitNl_no_nl_eq _ (splitNl_getLastD_no_nl x)]
  simp only [List.dropLast_single, List.nil_append, List.getLastD_cons,
             List.getLastD_nil]

/-- MCPClient.handleData composes over chunk boundaries: feeding two
chunks one after the other ends in the same state as feeding their
concatenation. -/
theorem handleData_append (parse : List Char → Option Msg) (st : CState)
    (a b : List Char) :
    handleData parse (handleData parse st a) b =
      handleData parse st (a ++ b) := by
  rw [handleData_eq parse st a, handleData_eq, handleData_eq parse st (a ++ b)]
  dsimp only
  rw [splitNl_frag_append]
  have hne : (splitNl ((splitNl (st.buffer ++ a)).getLastD [] ++ b)) ≠ [] :=
    splitNl_ne_nil _
  rw [splitNl_frag_append] at hne
  rw [← List.append_assoc, splitNl_append (st.buffer ++ a) b,
      dropLast_append_right _ _ hne, getLastD_append_right _ _ _ hne,
      processLines_append, processLines_buffer]

/-- Claim C7.  The framer buffers bytes, splits on newlines, parses each
complete line as one message, and keeps the incomplete trailing fragment:
(1) feeding any nonempty sequence of chunks leaves the client in exactly
the state reached by feeding their concatenation as one chunk — the
dispatched message sequence is independent of how the stream is chunked;
(2) a line that fails to parse (parse = none, the caught SyntaxError) is
discarded without affecting the handling of any other line. -/
theorem handleData_framing :
    (∀ (parse : List Char → Option Msg) (st : CState)
       (chunks : List (List Char)) (c : List Char),
       List.foldl (handleData parse) st (c :: chunks) =
         handleData parse st (c :: chunks).flatten) ∧
    (∀ (parse : List Char → Option Msg) (st : CState)
       (pre post : List (List Char)) (bad : List Char),
       parse bad = none →
       processLines parse st (pre ++ bad :: post) =
         processLines parse st (pre ++ post)) := by
  constructor
  · intro parse st chunks c
    induction chunks generalizing st c with
    | nil => simp [List.flatten]
    | cons d cs ih =>
      show List.foldl (handleData parse) (handleData parse st c) (d :: cs) =
        handleData parse st (c :: d :: cs).flatten
      rw [ih (handleData parse st c) d, handleData_append]
      simp [List.flatten]
  · intro parse st pre post bad hbad
    have hskip : ∀ s, dispatchLine parse s bad = s := by
      intro s
      unfold dispatchLine
      by_cases ht : jsTrimL bad = []
      · simp [ht]
      · simp [ht, hbad]
    rw [processLines_append, processLines_append]
    show processLines parse (processLines parse st pre) (bad :: post) = _
    simp only [processLines, List.foldl_cons, hskip]

/-- Claim C7 (witness): chunked and concatenated delivery agree on a
concrete stream, and a non-parsing line is dropped. -/
theorem handleData_framing_witness :
    List.foldl (handleData (fun _ => none)) connectedClient
        ["ab".toList, "c\nd".toList] =
      handleData (fun _ => none) connectedClient
        (List.flatten ["ab".toList, "c\nd".toList]) ∧
    processLines (fun _ => none) connectedClient ([] ++ "oops".toList :: []) =
      processLines (fun _ => none) connectedClient ([] ++ []) :=
  ⟨handleData_framing.1 (fun _ => none) connectedClient ["c\nd".toList]
      "ab".toList,
   handleData_framing.2 (fun _ => none) connectedClient [] [] "oops".toList rfl⟩

/-! ## Invariant lemmas for the pending table -/

/-- A pending lookup succeeds exactly when the id is a pending key. -/
theorem lookupPend_isSome_mem (ps : List (Nat × String)) (i : Nat) :
    (lookupPend ps i).isSome = true ↔ i ∈ ps.map Prod.fst := by
  unfold lookupPend
  rcases hf : ps.find? (fun e => e.1 == i) with _ | e
  · simp only [hf, Option.isSome_none, Bool.false_eq_true, false_iff]
    rw [List.find?_eq_none] at hf
    intro hm
    obtain ⟨e, he, hei⟩ := List.mem_map.mp hm
    exact absurd (by simp [hei]) (hf e he)
  · simp only [hf, Option.isSome_some, true_iff]
    have h1 := List.find?_some hf
    have h2 : e ∈ ps := List.mem_of_find?_eq_some hf
    exact List.mem_map.mpr ⟨e, h2, by simpa using h1⟩

/-- The keys after a Map.delete are the keys with the deleted one
filtered out. -/
theorem removePend_map_fst (ps : List (Nat × String)) (i : Nat) :
    (removePend ps i).map Prod.fst =
      (ps.map Prod.fst).filter (fun j => !(j == i)) := by
  induction ps with
  | nil => rfl
  | cons e ps ih =>
    by_cases he : (e.1 == i) = true
    · simp only [removePend, List.filter_cons, List.map_cons] at ih ⊢
      simp [he, ih]
    · simp only [removePend, List.filter_cons, List.map_cons] at ih ⊢
      simp [he, ih]

/-- Map.set on an id beyond every existing key appends the new entry. -/
theorem pendSet_fresh (ps : List (Nat × String)) (i : Nat) (m : String)
    (n : Nat) (hb : ∀ e ∈ ps, e.1 ≤ n) (hi : n < i) :
    pendSet ps i m = ps ++ [(i, m)] := by
  unfold pendSet
  have hf : ps.find? (fun e => e.1 == i) = none := by
    rw [List.find?_eq_none]
    intro e he
    have := hb e he
    simp only [beq_iff_eq]
    omega
  simp [hf]

/-- sendRequest preserves the id bookkeeping invariant. -/
theorem goodIds_sendRequest (st : CState) (m : String) (p : JVal)
    (h : GoodIds st) : GoodIds (sendRequest st m p).1 := by
  obtain ⟨hp, hc, hnp, hnc, hd⟩ := h
  have hfresh : pendSet st.pending (st.requestId + 1) m =
      st.pending ++ [(st.requestId + 1, m)] :=
    pendSet_fresh _ _ _ st.requestId hp (Nat.lt_succ_self _)
  have key : GoodIds { st with requestId := st.requestId + 1,
                               pending := pendSet st.pending (st.requestId + 1) m } := by
    refine ⟨?_, ?_, ?_, ?_, ?_⟩
    · intro e he
      simp only [hfresh] at he
      rcases List.mem_append.mp he with h1 | h1
      · exact Nat.le_succ_of_le (hp e h1)
      · simp only [List.mem_singleton] at h1
        subst h1
        exact Nat.le_refl _
    · intro e he
      exact Nat.le_succ_of_le (hc e he)
    · show ((pendSet st.pending (st.requestId + 1) m).map Prod.fst).Nodup
      rw [hfresh, List.map_append, List.nodup_append]
      refine ⟨hnp, List.nodup_singleton _, ?_⟩
      intro j hj hj2
      simp only [List.map_cons, List.map_nil, List.mem_singleton] at hj2
      obtain ⟨e, he, hei⟩ := List.mem_map.mp hj
      have := hp e he
      omega
    · exact hnc
    · intro j hj
      simp only [hfresh, List.map_append] at hj
      rcases List.mem_append.mp hj with h1 | h1
      · exact hd j h1
      · simp only [List.map_cons, List.map_nil, List.mem_singleton] at h1
        subst h1
        intro hmem
        obtain ⟨e, he, hei⟩ := List.mem_map.mp hmem
        have := hc e he
        omega
  unfold sendRequest
  by_cases ha : st.procAlive = true
  · simp only [ha, if_true]
    exact key
  · simp only [Bool.not_eq_true] at ha
    simp only [ha, Bool.false_eq_true, if_false]
    exact key

/-- Completing a pending id (moving it from the pending table to the
completion log) preserves the id bookkeeping invariant. -/
theorem goodIds_complete (st : CState) (i : Nat) (o : Outcome)
    (h : GoodIds st) (hi : i ∈ st.pending.map Prod.fst) :
    GoodIds { st with pending := removePend st.pending i,
                      completions := st.completions ++ [(i, o)] } := by
  obtain ⟨hp, hc, hnp, hnc, hd⟩ := h
  have hib : i ≤ st.requestId := by
    obtain ⟨e, he, hei⟩ := List.mem_map.mp hi
    exact hei ▸ hp e he
  refine ⟨?_, ?_, ?_, ?_, ?_⟩
  · intro e he
    exact hp e (List.mem_of_mem_filter he)
  · intro e he
    rcases List.mem_append.mp he with h1 | h1
    · exact hc e h1
    · simp only [List.mem_singleton] at h1
      subst h1
      exact hib
  · show ((removePend st.pending i).map Prod.fst).Nodup
    rw [removePend_map_fst]
    exact hnp.filter _
  · show ((st.completions ++ [(i, o)]).map Prod.fst).Nodup
    rw [List.map_append, List.nodup_append]
    refine ⟨hnc, List.nodup_singleton _, ?_⟩
    intro j hj hj2
    simp only [List.map_cons, List.map_nil, List.mem_singleton] at hj2
    subst hj2
    exact hd j hi hj
  · intro j hj
    show j ∉ (st.completions ++ [(i, o)]).map Prod.fst
    simp only [removePend_map_fst] at hj
    have hj1 := List.mem_of_mem_filter hj
    have hj2 := List.of_mem_filter hj
    simp only [Bool.not_eq_eq_eq_not, Bool.not_true, beq_eq_false_iff_ne,
               ne_eq] at hj2
    rw [List.map_append]
    intro hmem
    rcases List.mem_append.mp hmem with h1 | h1
    · exact hd j hj1 h1
    · simp only [List.map_cons, List.map_nil, List.mem_singleton] at h1
      exact hj2 h1

/-- handleMessage preserves the id bookkeeping invariant. -/
theorem goodIds_handleMessage (st : CState) (m : Msg) (h : GoodIds st) :
    GoodIds (handleMessage st m) := by
  obtain ⟨hp, hc, hnp, hnc, hd⟩ := h
  rcases m with ⟨mid, mm, mparams, mres, merr⟩
  cases mid with
  | none =>
    cases mm
    · exact ⟨hp, hc, hnp, hnc, hd⟩
    · exact ⟨hp, hc, hnp, hnc, hd⟩
  | some i =>
    by_cases hl : (lookupPend st.pending i).isSome = true
    · have hi : i ∈ st.pending.map Prod.fst := (lookupPend_isSome_mem _ _).mp hl
      simp only [handleMessage, hl, if_true]
      exact goodIds_complete st i _ ⟨hp, hc, hnp, hnc, hd⟩ hi
    · simp only [handleMessage, hl, Bool.false_eq_true, if_false]
      cases mm
      · exact ⟨hp, hc, hnp, hnc, hd⟩
      · exact ⟨hp, hc, hnp, hnc, hd⟩

/-- fireTimeout preserves the id bookkeeping invariant. -/
theorem goodIds_fireTimeout (st : CState) (i : Nat) (h : GoodIds st) :
    GoodIds (fireTimeout st i) := by
  unfold fireTimeout
  by_cases ha : st.armed.contains i = true
  · simp only [ha, if_true]
    rcases hl : lookupPend st.pending i with _ | mth
    · exact h
    · have hi : i ∈ st.pending.map Prod.fst :=
        (lookupPend_isSome_mem _ _).mp (by simp [hl])
      exact goodIds_complete st i _ h hi
  · simp only [Bool.not_eq_true] at ha
    simp only [ha, Bool.false_eq_true, if_false]
    exact h

/-- dispatchLine preserves the id bookkeeping invariant. -/
theorem goodIds_dispatchLine (parse : List Char → Option Msg) (st : CState)
    (line : List Char) (h : GoodIds st) :
    GoodIds (dispatchLine parse st line) := by
  unfold dispatchLine
  by_cases ht : jsTrimL line = []
  · simp only [ht, if_pos rfl]
    exact h
  · simp only [ht, if_false]
    cases parse line
    · exact h
    · exact goodIds_handleMessage st _ h

/-- processLines preserves the id bookkeeping invariant. -/
theorem goodIds_processLines (parse : List Char → Option Msg)
    (ls : List (List Char)) :
    ∀ st : CState, GoodIds st → GoodIds (processLines parse st ls) := by
  induction ls with
  | nil => intro st h; exact h
  | cons l ls ih =>
    intro st h
    exact ih (dispatchLine parse st l) (goodIds_dispatchLine parse st l h)

/-- handleData preserves the id bookkeeping invariant. -/
theorem goodIds_handleData (parse : List Char → Option Msg) (st : CState)
    (data : List Char) (h : GoodIds st) :
    GoodIds (handleData parse st data) := by
  rw [handleData_eq]
  exact goodIds_processLines parse _ st h

/-- One event step preserves the id bookkeeping invariant. -/
theorem goodIds_stepEv (parse : List Char → Option Msg) (st : CState)
    (e : CEvent) (h : GoodIds st) : GoodIds (stepEv parse st e) := by
  cases e with
  | send m p => exact goodIds_sendRequest st m p h
  | recvData d => exact goodIds_handleData parse st d h
  | fire i => exact goodIds_fireTimeout st i h
  | procClose => exact h
  | discon =>
    unfold stepEv disconnect
    by_cases ha : st.procAlive = true
    · simp only [ha, if_true]
      exact h
    · simp only [Bool.not_eq_true] at ha
      simp only [ha, Bool.false_eq_true, if_false]
      exact h

/-- Folding event steps from any well-formed state preserves the id
bookkeeping invariant. -/
theorem goodIds_foldl (parse : List Char → Option Msg) (l : List CEvent) :
    ∀ st : CState, GoodIds st → GoodIds (List.foldl (stepEv parse) st l) := by
  induction l with
  | nil => intro st h; exact h
  | cons x xs ih =>
    intro st h
    exact ih (stepEv parse st x) (goodIds_stepEv parse st x h)

/-- The id bookkeeping invariant holds in every reachable client state. -/
theorem goodIds_runEvents (parse : List Char → Option Msg)
    (evs : List CEvent) : GoodIds (runEvents parse evs) := by
  refine goodIds_foldl parse evs connectedClient ?_
  refine ⟨?_, ?_, ?_, ?_, ?_⟩ <;> simp [connectedClient, initClient]

/-- Claim C6.  A request is completed at most once: (1) in every state a
client can reach by any sequence of sends, received data, timer firings,
close events and disconnects, the completion log holds at most one entry
per request id — the pending entry is removed in the same step that
completes it, so resolve and reject exclude each other; (2) when the
30-second timer of a still-pending request fires, the entry is removed
and the request is rejected with a timeout error naming the method;
(3) a response whose id has no pending entry (e.g. arriving after the
timeout) is silently dropped: it changes nothing and never completes the
request a second time. -/
theorem request_completed_at_most_once :
    (∀ (parse : List Char → Option Msg) (evs : List CEvent),
       ((runEvents parse evs).completions.map Prod.fst).Nodup) ∧
    (∀ (st : CState) (i : Nat) (m : String),
       st.armed.contains i = true →
       lookupPend st.pending i = some m →
       fireTimeout st i =
         { st with pending := removePend st.pending i,
                   completions := st.completions ++
                     [(i, .rejected ("Request timeout: " ++ m))] }) ∧
    (∀ (st : CState) (msg : Msg) (i : Nat),
       msg.id = some i → lookupPend st.pending i = none → msg.method = none →
       handleMessage st msg = st) := by
  refine ⟨?_, ?_, ?_⟩
  · intro parse evs
    exact (goodIds_runEvents parse evs).2.2.2.1
  · intro st i m ha hl
    simp only [fireTimeout, ha, if_true, hl]
  · intro st msg i hid hl hm
    rcases msg with ⟨mid, mm, mp, mr, me⟩
    simp only [] at hid hm
    subst hid
    subst hm
    simp only [handleMessage, hl, Option.isSome_none, Bool.false_eq_true,
               if_false]

/-- Claim C6 (witness): with request 1 pending, its timer firing rejects
it with the timeout error naming the method, and the late response for
id 1 arriving afterwards is dropped without effect. -/
theorem request_completed_at_most_once_witness :
    fireTimeout (sendRequest connectedClient "tools/list" .null).1 1 =
      { (sendRequest connectedClient "tools/list" .null).1 with
          pending := [],
          completions := [(1, .rejected "Request timeout: tools/list")] } ∧
    handleMessage (fireTimeout (sendRequest connectedClient "tools/list" .null).1 1)
        ⟨some 1, none, none, some (.num 3), none⟩ =
      fireTimeout (sendRequest connectedClient "tools/list" .null).1 1 :=
  ⟨(request_completed_at_most_once.2.1
      (sendRequest connectedClient "tools/list" .null).1 1 "tools/list"
      rfl rfl).trans rfl,
   request_completed_at_most_once.2.2
     (fireTimeout (sendRequest connectedClient "tools/list" .null).1 1)
     ⟨some 1, none, none, some (.num 3), none⟩ 1 rfl rfl rfl⟩

/-! ## Registry lemmas -/

/-- The qualified names of one server's catalog block. -/
theorem toolEntries_map_fullName (n : String) (ts : List ToolSpec) :
    (toolEntries n ts).map RegTool.fullName =
      (ts.map ToolSpec.name).map (qualName n) := by
  simp [toolEntries, List.map_map]

/-- Splitting at the separator is unambiguous when neither name contains
an underscore. -/
theorem underscore_sep_inj : ∀ (n1 n2 t1 t2 : List Char),
    '_' ∉ n1 → '_' ∉ n2 →
    n1 ++ '_' :: '_' :: t1 = n2 ++ '_' :: '_' :: t2 →
    n1 = n2 ∧ t1 = t2 := by
  intro n1
  induction n1 with
  | nil =>
    intro n2 t1 t2 h1 h2 he
    cases n2 with
    | nil => simpa using he
    | cons c n2x =>
      simp only [List.nil_append, List.cons_append, List.cons.injEq] at he
      exact absurd (by rw [← he.1]; exact List.mem_cons_self _ _) h2
  | cons c n1x ih =>
    intro n2 t1 t2 h1 h2 he
    cases n2 with
    | nil =>
      simp only [List.nil_append, List.cons_append, List.cons.injEq] at he
      exact absurd (by rw [he.1]; exact List.mem_cons_self _ _) h1
    | cons d n2x =>
      simp only [List.cons_append, List.cons.injEq] at he
      obtain ⟨hcd, he2⟩ := he
      have h1x : '_' ∉ n1x := fun m => h1 (List.mem_cons_of_mem _ m)
      have h2x : '_' ∉ n2x := fun m => h2 (List.mem_cons_of_mem _ m)
      obtain ⟨hn, ht⟩ := ih n2x t1 t2 h1x h2x he2
      exact ⟨by rw [hcd, hn], ht⟩

/-- qualName is injective on pairs whose server names contain no
underscore. -/
theorem qualName_inj (n1 t1 n2 t2 : String)
    (h1 : '_' ∉ n1.data) (h2 : '_' ∉ n2.data)
    (he : qualName n1 t1 = qualName n2 t2) : n1 = n2 ∧ t1 = t2 := by
  have hd : n1.data ++ '_' :: '_' :: t1.data =
      n2.data ++ '_' :: '_' :: t2.data := by
    have h0 := congrArg String.data he
    simp only [qualName, String.data_append] at h0
    simpa using h0
  obtain ⟨hn, ht⟩ := underscore_sep_inj n1.data n2.data t1.data t2.data h1 h2 hd
  exact ⟨String.ext hn, String.ext ht⟩

/-- Unfolding one entry of a client lookup. -/
theorem lookupClient_cons (e : String × MClientS) (cs : List (String × MClientS))
    (n : String) :
    lookupClient (e :: cs) n =
      if (e.1 == n) = true then some e.2 else lookupClient cs n := by
  by_cases hz : (e.1 == n) = true
  · rw [if_pos hz]
    simp only [lookupClient, List.find?, hz]
  · rw [if_neg hz]
    have hz2 : (e.1 == n) = false := by simpa using hz
    simp only [lookupClient, List.find?, hz2]

/-- The lookup and the underlying find? succeed together. -/
theorem lookupClient_isSome_find (cs : List (String × MClientS)) (n : String) :
    (lookupClient cs n).isSome = (cs.find? (fun e => e.1 == n)).isSome := by
  unfold lookupClient
  rcases h : cs.find? (fun e => e.1 == n) with _ | e <;> rw [h] <;> rfl

/-- Map.set via in-place overwrite: looking up the overwritten key. -/
theorem lookup_map_overwrite_self (cs : List (String × MClientS)) (n : String)
    (c : MClientS) (hf : (lookupClient cs n).isSome = true) :
    lookupClient (cs.map (fun e => if e.1 == n then (n, c) else e)) n = some c := by
  induction cs with
  | nil => simp [lookupClient] at hf
  | cons e cs ih =>
    rw [lookupClient_cons] at hf
    by_cases he : (e.1 == n) = true
    · have hhead : (if (e.1 == n) = true then (n, c) else e) = (n, c) :=
        if_pos he
      rw [List.map_cons, hhead, lookupClient_cons]
      simp
    · have hhead : (if (e.1 == n) = true then (n, c) else e) = e := if_neg he
      rw [List.map_cons, hhead, lookupClient_cons, if_neg he]
      rw [if_neg he] at hf
      exact ih hf

/-- Map.set via in-place overwrite: looking up any other key. -/
theorem lookup_map_overwrite_other (cs : List (String × MClientS)) (n : String)
    (c : MClientS) (n2 : String) (hne : n2 ≠ n) :
    lookupClient (cs.map (fun e => if e.1 == n then (n, c) else e)) n2 =
      lookupClient cs n2 := by
  induction cs with
  | nil => rfl
  | cons e cs ih =>
    by_cases he : (e.1 == n) = true
    · have hen : e.1 = n := by simpa using he
      have hhead : (if (e.1 == n) = true then (n, c) else e) = (n, c) :=
        if_pos he
      have hx : (n == n2) = false := by
        simp only [beq_eq_false_iff_ne, ne_eq]
        exact fun hy => hne hy.symm
      have hy : (e.1 == n2) = false := by
        simp only [beq_eq_false_iff_ne, ne_eq, hen]
        exact fun hz => hne hz.symm
      rw [List.map_cons, hhead, lookupClient_cons, lookupClient_cons, hx, hy]
      simp only [Bool.false_eq_true, if_false]
      exact ih
    · have hhead : (if (e.1 == n) = true then (n, c) else e) = e := if_neg he
      rw [List.map_cons, hhead, lookupClient_cons, lookupClient_cons, ih]

/-- Map.set via append (key absent): looking up the new key. -/
theorem lookup_append_single_self (cs : List (String × MClientS)) (n : String)
    (c : MClientS) (hf : lookupClient cs n = none) :
    lookupClient (cs ++ [(n, c)]) n = some c := by
  induction cs with
  | nil =>
    rw [List.nil_append, lookupClient_cons]
    simp
  | cons e cs ih =>
    rw [lookupClient_cons] at hf
    by_cases he : (e.1 == n) = true
    · rw [if_pos he] at hf
      cases hf
    · rw [if_neg he] at hf
      rw [List.cons_append, lookupClient_cons, if_neg he]
      exact ih hf

/-- Map.set via append (key absent): looking up any other key. -/
theorem lookup_append_single_other (cs : List (String × MClientS)) (n : String)
    (c : MClientS) (n2 : String) (hne : n2 ≠ n) :
    lookupClient (cs ++ [(n, c)]) n2 = lookupClient cs n2 := by
  induction cs with
  | nil =>
    have hx : (n == n2) = false := by
      simp only [beq_eq_false_iff_ne, ne_eq]
      exact fun hy => hne hy.symm
    rw [List.nil_append, lookupClient_cons, hx]
    simp only [Bool.false_eq_true, if_false]
  | cons e cs ih =>
    rw [List.cons_append, lookupClient_cons, lookupClient_cons, ih]

/-- Looking up the key just set returns the new client. -/
theorem lookupClient_set_self (cs : List (String × MClientS)) (n : String)
    (c : MClientS) : lookupClient (clientsSet cs n c) n = some c := by
  unfold clientsSet
  by_cases hf : (cs.find? (fun e => e.1 == n)).isSome = true
  · rw [if_pos hf]
    exact lookup_map_overwrite_self cs n c
      ((lookupClient_isSome_find cs n).trans hf)
  · rw [if_neg hf]
    refine lookup_append_single_self cs n c ?_
    have h2 : (lookupClient cs n).isSome = false := by
      rw [lookupClient_isSome_find]
      exact Bool.not_eq_true _ ▸ (by simpa using hf)
    exact Option.not_isSome_iff_eq_none.mp (by simp [h2])

/-- Looking up another key is unchanged by Map.set. -/
theorem lookupClient_set_other (cs : List (String × MClientS)) (n : String)
    (c : MClientS) (n2 : String) (hne : n2 ≠ n) :
    lookupClient (clientsSet cs n c) n2 = lookupClient cs n2 := by
  unfold clientsSet
  by_cases hf : (cs.find? (fun e => e.1 == n)).isSome = true
  · rw [if_pos hf]
    exact lookup_map_overwrite_other cs n c n2 hne
  · rw [if_neg hf]
    exact lookup_append_single_other cs n c n2 hne

/-- Successful registrations only append to the capability catalog. -/
theorem registerAll_allTools (regs : List (String × List ToolSpec)) :
    ∀ st : MState, (registerAll st regs).allTools =
      st.allTools ++ (regs.map (fun r => toolEntries r.1 r.2)).flatten := by
  induction regs with
  | nil => intro st; simp [registerAll]
  | cons r rest ih =>
    intro st
    show (registerAll (addServer st r.1 (.ok r.2)).1 rest).allTools = _
    rw [ih]
    simp [addServer, List.append_assoc]

/-- Registering other providers does not disturb a name's client entry. -/
theorem registerAll_lookup_not_mem (regs : List (String × List ToolSpec)) :
    ∀ (st : MState) (n : String), n ∉ regs.map Prod.fst →
      lookupClient (registerAll st regs).clients n = lookupClient st.clients n := by
  induction regs with
  | nil => intro st n _; rfl
  | cons r rest ih =>
    intro st n hn
    simp only [List.map_cons, List.mem_cons, not_or] at hn
    show lookupClient (registerAll (addServer st r.1 (.ok r.2)).1 rest).clients n = _
    rw [ih _ n hn.2]
    show lookupClient (clientsSet st.clients r.1 ⟨true, r.2⟩) n = _
    exact lookupClient_set_other st.clients r.1 ⟨true, r.2⟩ n hn.1

/-- After a sequence of successful registrations with distinct provider
names, each name's client is the connected client listing its tools. -/
theorem registerAll_clients_mem (regs : List (String × List ToolSpec)) :
    ∀ (st : MState) (r : String × List ToolSpec), r ∈ regs →
      (regs.map Prod.fst).Nodup →
      lookupClient (registerAll st regs).clients r.1 = some ⟨true, r.2⟩ := by
  induction regs with
  | nil => intro st r h _; cases h
  | cons a rest ih =>
    intro st r hr hnd
    simp only [List.map_cons, List.nodup_cons] at hnd
    rcases List.mem_cons.mp hr with h1 | h1
    · subst h1
      show lookupClient (registerAll (addServer st r.1 (.ok r.2)).1 rest).clients r.1 = _
      rw [registerAll_lookup_not_mem rest _ r.1 hnd.1]
      show lookupClient (clientsSet st.clients r.1 ⟨true, r.2⟩) r.1 = _
      exact lookupClient_set_self st.clients r.1 ⟨true, r.2⟩
    · exact ih (addServer st a.1 (.ok a.2)).1 r h1 hnd.2

/-- Under distinct underscore-free provider names and duplicate-free
per-provider tool lists, the flattened catalog's qualified names are
globally unique. -/
theorem catalog_fullNames_nodup (regs : List (String × List ToolSpec))
    (hnames : (regs.map Prod.fst).Nodup)
    (hus : ∀ r ∈ regs, '_' ∉ r.1.data)
    (htools : ∀ r ∈ regs, (r.2.map ToolSpec.name).Nodup) :
    (((regs.map (fun r => toolEntries r.1 r.2)).flatten).map
        RegTool.fullName).Nodup := by
  rw [List.map_flatten]
  rw [List.nodup_flatten]
  constructor
  · intro l hl
    simp only [List.map_map, List.mem_map] at hl
    obtain ⟨r, hr, hleq⟩ := hl
    subst hleq
    have : ((toolEntries r.1 r.2).map RegTool.fullName).Nodup := by
      rw [toolEntries_map_fullName]
      refine (htools r hr).map ?_
      intro a b hab
      exact (qualName_inj r.1 a r.1 b (hus r hr) (hus r hr) hab).2
    simpa [Function.comp] using this
  · have hp : regs.Pairwise (fun a b => a.1 ≠ b.1) := by
      have h0 : (regs.map Prod.fst).Pairwise (fun a b => a ≠ b) := hnames
      rw [List.pairwise_map] at h0
      exact h0
    have hp2 : (regs.map (fun r => (toolEntries r.1 r.2).map RegTool.fullName)).Pairwise
        List.Disjoint := by
      rw [List.pairwise_map]
      refine List.Pairwise.imp_of_mem ?_ hp
      intro a b ha hb hne q hqa hqb
      rw [toolEntries_map_fullName] at hqa hqb
      obtain ⟨ta, _, hta⟩ := List.mem_map.mp hqa
      obtain ⟨tb, _, htb⟩ := List.mem_map.mp hqb
      have := qualName_inj a.1 ta b.1 tb (hus a ha) (hus b hb)
        (hta.trans htb.symm)
      exact hne this.1
    have h3 : (regs.map (fun r => toolEntries r.1 r.2)).map (List.map RegTool.fullName) =
        regs.map (fun r => (toolEntries r.1 r.2).map RegTool.fullName) := by
      rw [List.map_map]
      rfl
    rw [h3]
    exact hp2

/-- In a list whose keys are duplicate-free, find? by a member's key
returns exactly that member. -/
theorem find_fullName_unique (l : List RegTool) (e : RegTool) (q : String)
    (hq : e.fullName = q) (he : e ∈ l)
    (hnd : (l.map RegTool.fullName).Nodup) :
    l.find? (fun t => t.fullName == q) = some e := by
  induction l with
  | nil => cases he
  | cons a l ih =>
    simp only [List.map_cons, List.nodup_cons] at hnd
    rcases List.mem_cons.mp he with h1 | h1
    · subst h1
      exact List.find?_cons_of_pos _ (by simp [hq])
    · by_cases ha : (a.fullName == q) = true
      · exfalso
        simp only [beq_iff_eq] at ha
        have hmem : e.fullName ∈ l.map RegTool.fullName :=
          List.mem_map_of_mem _ h1
        rw [hq, ← ha] at hmem
        exact hnd.1 hmem
      · have ha2 : (a.fullName == q) = false := by simpa using ha
        simp only [List.find?, ha2]
        exact ih h1 hnd.2

/-- Claim C9 (counterexample).  "After any sequence of provider
registrations, qualified names are globally unique across the catalog" is
false on the code in three ways: re-registering an existing provider name
appends duplicate entries instead of replacing the old ones; provider
names containing the separator collide across providers (a__b with tool c
and a with tool b__c both yield a__b__c); and a provider listing the same
tool name twice yields a duplicate qualified name. -/
theorem registry_qualified_names_cex :
    ¬ (((registerAll emptyManager
          [("p", [⟨"t", none, none⟩]), ("p", [⟨"t", none, none⟩])]).allTools.map
            RegTool.fullName).Nodup) ∧
    ¬ (((registerAll emptyManager
          [("a__b", [⟨"c", none, none⟩]),
           ("a", [⟨"b__c", none, none⟩])]).allTools.map
            RegTool.fullName).Nodup) ∧
    ¬ (((registerAll emptyManager
          [("p", [⟨"t", none, none⟩, ⟨"t", none, none⟩])]).allTools.map
            RegTool.fullName).Nodup) := by
  exact ⟨by decide, by decide, by decide⟩

/-- Claim C9 (amended).  Every capability registered by addServer gets
the qualified name providerName__localName.  After any sequence of
successful registrations in which the provider names are pairwise
distinct and contain no underscore, and each provider's local tool names
are duplicate-free, the qualified names are globally unique across the
catalog; in particular two providers exposing a capability of the same
local name appear as two distinct qualified names, and executeTool on
each qualified name delegates to that provider's client with the local
name — never to the other provider. -/
theorem registry_qualified_names (regs : List (String × List ToolSpec))
    (hnames : (regs.map Prod.fst).Nodup)
    (hus : ∀ r ∈ regs, '_' ∉ r.1.data)
    (htools : ∀ r ∈ regs, (r.2.map ToolSpec.name).Nodup) :
    ((registerAll emptyManager regs).allTools.map RegTool.fullName).Nodup ∧
    (∀ r ∈ regs, ∀ t ∈ r.2,
       executeTool (registerAll emptyManager regs) (qualName r.1 t.name) =
         .call r.1 t.name) := by
  have hall : (registerAll emptyManager regs).allTools =
      (regs.map (fun r => toolEntries r.1 r.2)).flatten := by
    rw [registerAll_allTools]
    rfl
  have hnd : ((registerAll emptyManager regs).allTools.map
      RegTool.fullName).Nodup := by
    rw [hall]
    exact catalog_fullNames_nodup regs hnames hus htools
  refine ⟨hnd, ?_⟩
  intro r hr t ht
  have hentry : (⟨t.name, t.description, t.inputSchema, r.1,
      qualName r.1 t.name⟩ : RegTool) ∈
      (registerAll emptyManager regs).allTools := by
    rw [hall, List.mem_flatten]
    exact ⟨toolEntries r.1 r.2, List.mem_map_of_mem _ hr,
           List.mem_map_of_mem _ ht⟩
  unfold executeTool
  rw [find_fullName_unique (registerAll emptyManager regs).allTools _
      (qualName r.1 t.name) rfl hentry hnd]
  dsimp only
  rw [registerAll_clients_mem regs emptyManager r hr hnames]
  rfl

/-- Claim C9 (witness): two providers, crm and docs, each exposing a tool
named query, are routed by their distinct qualified names to their own
clients. -/
theorem registry_qualified_names_witness :
    executeTool
        (registerAll emptyManager
          [("crm", [⟨"query", none, none⟩]), ("docs", [⟨"query", none, none⟩])])
        (qualName "crm" "query") = .call "crm" "query" ∧
    executeTool
        (registerAll emptyManager
          [("crm", [⟨"query", none, none⟩]), ("docs", [⟨"query", none, none⟩])])
        (qualName "docs" "query") = .call "docs" "query" := by
  have h := registry_qualified_names
    [("crm", [⟨"query", none, none⟩]), ("docs", [⟨"query", none, none⟩])]
    (by decide)
    (by intro r hr
        rcases List.mem_cons.mp hr with h1 | h1
        · subst h1
          decide
        · rcases List.mem_cons.mp h1 with h2 | h2
          · subst h2
            decide
          · cases h2)
    (by intro r hr
        rcases List.mem_cons.mp hr with h1 | h1
        · subst h1
          decide
        · rcases List.mem_cons.mp h1 with h2 | h2
          · subst h2
            decide
          · cases h2)
  exact ⟨h.2 _ (List.mem_cons_self _ _) _ (List.mem_cons_self _ _),
         h.2 _ (List.mem_cons_of_mem _ (List.mem_cons_self _ _)) _
           (List.mem_cons_self _ _)⟩
